import Mathlib

/-!
Verification of the ssdedupe scan-and-deduplicate engine (`src/scan.rs`).

The development shallowly embeds the core data model and operations of
`scan.rs`: the `EntryInfo` / `Entry` tree, the directory-fingerprint
constructor `EntryInfo::dir`, the aggregate accessors, the duplicate
detector `Entry::unfiltered_duplicates`, the redundant-byte accounting
`Entry::redundant_bytes`, the prefix-redundancy filter
`Entry::filter_duplicates_by_prefix`, and a sequential determinization of
the recursive scanner `Entry::scan` together with its shared `ScanState`.

Modelling conventions:

* `u64` counters are modelled as `Nat` (overflow of byte/count totals is
  out of scope for the claims); 64-bit fingerprints are modelled as
  residues modulo `2 ^ 64`.
* `BTreeMap<CompactString, Entry>` is modelled by the association list
  type `EntryMap` (a mutual inductive with `Entry`, so that all
  recursions are structural and kernel-computable); insertion keeps the
  keys sorted and unique exactly as a B-tree map does.
* `BTreeSet<PathBuf>` values of the duplicate map are modelled as
  `Finset Path` with `Path := List String` (the relative paths that the
  pipeline builds from an empty root by pushing child names); equality of
  `Finset`s is set equality, matching `BTreeSet` equality.
* `BTreeMap<EntryInfo, BTreeSet<PathBuf>>` is modelled as an association
  list `DupMap`; all statements about it are membership statements, so
  the key ordering of the B-tree is irrelevant.
-/

namespace SSDedupe

/-- Relative filesystem path, as the sequence of its components.  The
duplicate-detection pipeline only ever builds such paths, starting from
`PathBuf::new()` and pushing child names. -/
abbrev Path : Type := List String

/-- Rendering of a path for error messages, standing in for
`Path::display` on the paths the scanner visits. -/
def pathDisplay (p : Path) : String :=
  String.intercalate "/" p

/-- Modelled from the spec: the repository hashes with the external crate
`ahash` under fixed seeds (`ahash::RandomState::with_seeds(0, 0, 0, 0)`),
whose code is not part of this repository.  The spec requires a pure,
deterministic, fixed-seed 64-bit hash of byte sequences and of sequences
of 64-bit values.  We model it as a deterministic injective encoding of
the input sequence reduced modulo `2 ^ 64`: `encodeList` encodes a list
of numbers into one number via `Nat.pair`. -/
def encodeList : List Nat → Nat
  | [] => 0
  | x :: xs => Nat.pair x (encodeList xs) + 1

/-- Modelled from the spec: fingerprint of a byte sequence, the model of
feeding every byte of a file to the fixed-seed hasher and calling
`finish` (spec: "equivalent to hashing the concatenated file bytes"). -/
def hashBytes (content : List Nat) : Nat :=
  2 * encodeList content % 2 ^ 64

/-- Modelled from the spec: the model of `FIXED_RANDOM_STATE.hash_one`
applied to the pair of a `Vec<u64>` of child fingerprints and a 64-bit
marker constant: the vector followed by the marker is encoded as one
sequence.  The marker is the domain separator the source appends so that
an empty directory cannot hash like an empty file. -/
def hashU64s (hashes : List Nat) (marker : Nat) : Nat :=
  2 * encodeList (hashes ++ [marker]) % 2 ^ 64

/-- The marker constant from `EntryInfo::dir` in `scan.rs`. -/
def dirMarker : Nat := 0xBEEE38829F9F8197

/-- `enum EntryKind { Dir, File }` from `scan.rs`. -/
inductive EntryKind where
  | Dir
  | File
deriving DecidableEq, Repr

/-- `struct EntryInfo { bytes: u64, kind: EntryKind, hash: u64 }` from
`scan.rs`. -/
structure EntryInfo where
  bytes : Nat
  kind : EntryKind
  hash : Nat
deriving DecidableEq, Repr

/-- `EntryInfo::dir`: collect the child fingerprints, sort them
numerically, and hash the sorted sequence together with the marker;
`bytes` is the sum of the children's bytes and the kind is `Dir`. -/
def EntryInfo.dir (entries : List EntryInfo) : EntryInfo :=
  { kind := EntryKind.Dir
    bytes := (entries.map EntryInfo.bytes).sum
    hash := hashU64s ((entries.map EntryInfo.hash).insertionSort (fun a b => a ≤ b)) dirMarker }

mutual

/-- `enum Entry { Dir(Dir), File(EntryInfo) }` from `scan.rs`; the `Dir`
payload carries the fields of `struct Dir { info, dirs, files, entries }`. -/
inductive Entry where
  | Dir (info : EntryInfo) (dirs : Nat) (files : Nat) (entries : EntryMap)
  | File (info : EntryInfo)

/-- Association-list model of `BTreeMap<CompactString, Entry>`; mutual
with `Entry` so that recursion over trees is structural. -/
inductive EntryMap where
  | nil
  | cons (name : String) (entry : Entry) (rest : EntryMap)

end

/-- `Entry::info`. -/
def Entry.info : Entry → EntryInfo
  | .Dir i _ _ _ => i
  | .File i => i

/-- `Entry::dirs`. -/
def Entry.dirs : Entry → Nat
  | .File _ => 0
  | .Dir _ d _ _ => d

/-- `Entry::files`. -/
def Entry.files : Entry → Nat
  | .File _ => 1
  | .Dir _ _ f _ => f

/-- The values of an `EntryMap`, in key order (`BTreeMap::values`). -/
def EntryMap.values : EntryMap → List Entry
  | .nil => []
  | .cons _ e rest => e :: rest.values

/-- The `EntryInfo`s of the values of an `EntryMap`
(`entries.values().map(|entry| entry.info())`). -/
def EntryMap.infoList (m : EntryMap) : List EntryInfo :=
  m.values.map Entry.info

/-- `Entry::dir`: build a `Dir` entry from already-scanned children,
aggregating the fingerprint via `EntryInfo::dir`, the directory count as
one plus the children's, and the file count as the children's sum. -/
def Entry.dir (entries : EntryMap) : Entry :=
  .Dir (EntryInfo.dir entries.infoList)
    (1 + (entries.values.map Entry.dirs).sum)
    ((entries.values.map Entry.files).sum)
    entries

/-- Conversion from a plain enumeration (association list) of children to
an `EntryMap`, used to speak about the order in which children are
supplied. -/
def EntryMap.ofList : List (String × Entry) → EntryMap
  | [] => .nil
  | (n, e) :: rest => .cons n e (EntryMap.ofList rest)

theorem EntryMap.values_ofList (l : List (String × Entry)) :
    (EntryMap.ofList l).values = l.map Prod.snd := by
  induction l with
  | nil => rfl
  | cons kv rest ih => cases kv; simp [EntryMap.ofList, EntryMap.values, ih]

theorem EntryInfo.dir_perm {c₁ c₂ : List EntryInfo} (h : c₁.Perm c₂) :
    EntryInfo.dir c₁ = EntryInfo.dir c₂ := by
  have hb : (c₁.map EntryInfo.bytes).Perm (c₂.map EntryInfo.bytes) := h.map _
  have hh : (c₁.map EntryInfo.hash).Perm (c₂.map EntryInfo.hash) := h.map _
  have hsort : (c₁.map EntryInfo.hash).insertionSort (fun a b => a ≤ b) =
      (c₂.map EntryInfo.hash).insertionSort (fun a b => a ≤ b) := by
    refine List.eq_of_perm_of_sorted (r := fun a b : Nat => a ≤ b) ?_
      (List.sorted_insertionSort _ _) (List.sorted_insertionSort _ _)
    exact (List.perm_insertionSort _ _).trans (hh.trans (List.perm_insertionSort _ _).symm)
  unfold EntryInfo.dir
  rw [hb.sum_eq, hsort]

/-- Well-formed trees: those assembled from `File` leaves by the smart
constructor `Entry::dir`, the only way the scanner and the synthetic
cross-drive root ever build directory nodes. -/
inductive Built : Entry → Prop
  | file (i : EntryInfo) : Built (.File i)
  | dir (m : EntryMap) : (∀ e ∈ m.values, Built e) → Built (Entry.dir m)

mutual

/-- Decidable check of the aggregate invariants at every node of a tree:
each directory's `dirs` is one plus the sum of the children's, `files`
and `info.bytes` are the children's sums. -/
def Entry.aggInv : Entry → Bool
  | .File _ => true
  | .Dir i ds fs entries =>
      (ds == 1 + (entries.values.map Entry.dirs).sum) &&
      (fs == (entries.values.map Entry.files).sum) &&
      (i.bytes == (entries.infoList.map EntryInfo.bytes).sum) &&
      entries.allAggInv

/-- `Entry.aggInv` at every value of an `EntryMap`. -/
def EntryMap.allAggInv : EntryMap → Bool
  | .nil => true
  | .cons _ e rest => e.aggInv && rest.allAggInv

end

theorem EntryMap.allAggInv_iff : (m : EntryMap) →
    (m.allAggInv = true ↔ ∀ e ∈ m.values, e.aggInv = true)
  | .nil => by simp [EntryMap.allAggInv, EntryMap.values]
  | .cons n e rest => by
      simp [EntryMap.allAggInv, EntryMap.values, EntryMap.allAggInv_iff rest,
        Bool.and_eq_true]

theorem Built.aggInv_eq_true {e : Entry} (h : Built e) : e.aggInv = true := by
  induction h with
  | file i => rfl
  | dir m _ ih =>
      have hall : m.allAggInv = true := (EntryMap.allAggInv_iff m).mpr ih
      simp [Entry.dir, Entry.aggInv, EntryInfo.dir, EntryMap.infoList,
        List.map_map, hall]

mutual

/-- `Entry::hashes_with_root`: enumerate every node of the tree — the
node itself first, then, for a directory, all nodes of each child
subtree — paired with its full path from the given root path. -/
def Entry.hashesWithRoot : Entry → Path → List (EntryInfo × Path)
  | .File i, p => [(i, p)]
  | .Dir i _ _ entries, p => (i, p) :: entries.hashesBelow p

/-- The recursive enumeration of all children of a directory in
`Entry::hashes_with_root` (`dir.entries.iter().map(...).flatten()`). -/
def EntryMap.hashesBelow : EntryMap → Path → List (EntryInfo × Path)
  | .nil, _ => []
  | .cons name e rest, p => e.hashesWithRoot (p ++ [name]) ++ rest.hashesBelow p

end

/-- `Entry::hashes`: the enumeration started at the empty root path
(`PathBuf::new()`). -/
def Entry.hashes (e : Entry) : List (EntryInfo × Path) :=
  e.hashesWithRoot []

/-- The set of paths that the enumeration `l` associates with the key
`info` — the group that `into_grouping_map().collect::<BTreeSet<_>>()`
builds for that key. -/
def pathsOf (l : List (EntryInfo × Path)) (info : EntryInfo) : Finset Path :=
  (l.filterMap fun q => if q.1 = info then some q.2 else none).toFinset

/-- Association-list model of the duplicate map
`BTreeMap<EntryInfo, BTreeSet<PathBuf>>`. -/
abbrev DupMap : Type := List (EntryInfo × Finset Path)

/-- `Entry::unfiltered_duplicates`: group the enumerated
`(EntryInfo, path)` pairs by `EntryInfo` and retain only the groups
whose path set has more than one member. -/
def Entry.unfilteredDuplicates (e : Entry) : DupMap :=
  ((e.hashes.map Prod.fst).dedup).filterMap fun info =>
    let ps := pathsOf e.hashes info
    if 1 < ps.card then some (info, ps) else none

/-- `Entry::redundant_bytes`: over the `File`-kind groups of a duplicate
map, sum `bytes * (paths.len() - 1)` (the subtraction is the unguarded
`u64` subtraction of the source, modelled by truncated `Nat`
subtraction). -/
def Entry.redundantBytes (m : DupMap) : Nat :=
  ((m.filter fun kv => kv.1.kind == EntryKind.File).map
    fun kv => kv.1.bytes * (kv.2.card - 1)).sum

theorem mem_pathsOf {l : List (EntryInfo × Path)} {info : EntryInfo} {p : Path} :
    p ∈ pathsOf l info ↔ (info, p) ∈ l := by
  simp only [pathsOf, List.mem_toFinset, List.mem_filterMap]
  constructor
  · rintro ⟨⟨i, q⟩, hq, hif⟩
    split at hif
    · rename_i hcond
      injection hif with hqp
      have hi : i = info := hcond
      subst hi; subst hqp
      exact hq
    · exact absurd hif (by simp)
  · intro h
    exact ⟨(info, p), h, by simp⟩

theorem mem_unfilteredDuplicates {e : Entry} {info : EntryInfo} {ps : Finset Path} :
    (info, ps) ∈ e.unfilteredDuplicates ↔
      ps = pathsOf e.hashes info ∧ 1 < ps.card := by
  simp only [Entry.unfilteredDuplicates, List.mem_filterMap]
  constructor
  · rintro ⟨i, hi, hif⟩
    by_cases h : 1 < (pathsOf e.hashes i).card
    · simp only [if_pos h, Option.some.injEq, Prod.mk.injEq] at hif
      obtain ⟨rfl, rfl⟩ := hif
      exact ⟨rfl, h⟩
    · simp [if_neg h] at hif
  · rintro ⟨rfl, hcard⟩
    refine ⟨info, ?_, by simp [if_pos hcard]⟩
    have hne : (pathsOf e.hashes info).Nonempty :=
      Finset.card_pos.mp (by omega)
    obtain ⟨p, hp⟩ := hne
    have : (info, p) ∈ e.hashes := mem_pathsOf.mp hp
    exact List.mem_dedup.mpr (List.mem_map.mpr ⟨(info, p), this, rfl⟩)

/-- One climbing step on a single path, the model of
`(path.pop() && path.file_name().is_some()).then_some(path)`: popping
fails on an empty path, and a single-component path becomes empty (no
file name left), so a path yields its parent exactly when it has at
least two components. -/
def parentOf (p : Path) : Option Path :=
  if p.length ≤ 1 then none else some p.dropLast

/-- One climbing step on a whole path set, the model of
`paths.into_iter().map(...).collect::<Option<BTreeSet<_>>>()`: the set
of parents if every path has one, absent otherwise. -/
def parentsSet (s : Finset Path) : Option (Finset Path) :=
  if ∀ p ∈ s, 2 ≤ p.length then some (s.image List.dropLast) else none

/-- The `retain` predicate of `Entry::filter_duplicates_by_prefix`
(`true` keeps the group): repeatedly replace the path set by its parent
set; keep when some path runs out of components, drop when the parent
set is one of the collected value sets.  `fuel` bounds the number of
rounds; `climbFuel` below always provides enough. -/
def climb (sets : Finset (Finset Path)) : Nat → Finset Path → Bool
  | 0, _ => true
  | fuel + 1, paths =>
      match parentsSet paths with
      | none => true
      | some q => if q ∈ sets then false else climb sets fuel q

/-- Sufficient fuel for `climb`: the longest path bounds the number of
climbing rounds. -/
def climbFuel (s : Finset Path) : Nat :=
  s.sup List.length + 1

/-- The set of all path sets appearing as values of the duplicate map
(`duplicates.values().cloned().collect::<HashSet<_>>()`). -/
def valueSets (m : DupMap) : Finset (Finset Path) :=
  (m.map Prod.snd).toFinset

/-- `Entry::filter_duplicates_by_prefix`: retain exactly the groups
whose climb finds no implying value set. -/
def Entry.filterDuplicatesByPrefix (m : DupMap) : DupMap :=
  m.filter fun kv => climb (valueSets m) (climbFuel kv.2) kv.2

/-- `k`-fold iteration of the climbing step on a path set. -/
def parentsIterated : Nat → Finset Path → Option (Finset Path)
  | 0, s => some s
  | k + 1, s => (parentsIterated k s).bind parentsSet

/-- The claim's climbing condition, stated as reachability: replacing
every path by its parent in lockstep, round after round, reaches — with
every path still having a parent at every round — a parent-path set that
is one of the given value sets. -/
def climbReachesValueSet (sets : Finset (Finset Path)) (paths : Finset Path) : Prop :=
  ∃ k q, parentsIterated (k + 1) paths = some q ∧ q ∈ sets

theorem parentsIterated_succ_left (k : Nat) (s : Finset Path) :
    parentsIterated (k + 1) s =
      (parentsSet s).bind (parentsIterated k) := by
  induction k with
  | zero => simp [parentsIterated]
  | succ k ih =>
      calc parentsIterated (k + 2) s
          = (parentsIterated (k + 1) s).bind parentsSet := rfl
        _ = ((parentsSet s).bind (parentsIterated k)).bind parentsSet := by rw [ih]
        _ = (parentsSet s).bind (parentsIterated (k + 1)) := by
            cases parentsSet s <;> simp [parentsIterated]

theorem parentsSet_nonempty {s q : Finset Path} (hs : s.Nonempty)
    (h : parentsSet s = some q) : q.Nonempty := by
  unfold parentsSet at h
  split at h
  · injection h with h; subst h
    exact hs.image _
  · exact absurd h (by simp)

theorem parentsSet_sup_lt {s q : Finset Path} (hs : s.Nonempty)
    (h : parentsSet s = some q) :
    q.sup List.length < s.sup List.length := by
  unfold parentsSet at h
  split at h
  · rename_i hall
    injection h with h; subst h
    obtain ⟨p₀, hp₀⟩ := hs
    have h2 : 2 ≤ p₀.length := hall p₀ hp₀
    have hsup2 : 2 ≤ s.sup List.length :=
      le_trans h2 (Finset.le_sup hp₀)
    have : (s.image List.dropLast).sup List.length ≤ s.sup List.length - 1 := by
      refine Finset.sup_le ?_
      intro x hx
      obtain ⟨p, hp, rfl⟩ := Finset.mem_image.mp hx
      have hlen : p.length ≤ s.sup List.length := Finset.le_sup hp
      have := hall p hp
      simp only [List.length_dropLast]
      omega
    omega
  · exact absurd h (by simp)

theorem parentsSet_empty : parentsSet (∅ : Finset Path) = some ∅ := by
  simp [parentsSet]

theorem climbReaches_of_step {sets : Finset (Finset Path)} {s q : Finset Path}
    (h : parentsSet s = some q) (hq : q ∉ sets) :
    (climbReachesValueSet sets s ↔ climbReachesValueSet sets q) := by
  constructor
  · rintro ⟨k, r, hit, hr⟩
    cases k with
    | zero =>
        simp only [parentsIterated, Option.some_bind] at hit
        rw [hit] at h
        injection h with h
        exact absurd (h ▸ hr) hq
    | succ j =>
        rw [parentsIterated_succ_left, h, Option.some_bind] at hit
        exact ⟨j, r, hit, hr⟩
  · rintro ⟨k, r, hit, hr⟩
    refine ⟨k + 1, r, ?_, hr⟩
    rw [parentsIterated_succ_left, h, Option.some_bind]
    exact hit

theorem not_climbReaches_of_none {sets : Finset (Finset Path)} {s : Finset Path}
    (h : parentsSet s = none) : ¬ climbReachesValueSet sets s := by
  rintro ⟨k, r, hit, _⟩
  rw [parentsIterated_succ_left, h] at hit
  exact absurd hit (by simp)

theorem climb_eq_false_iff (sets : Finset (Finset Path)) :
    ∀ (fuel : Nat) (s : Finset Path), (s = ∅ → ∅ ∈ sets) →
      s.sup List.length < fuel →
      (climb sets fuel s = false ↔ climbReachesValueSet sets s) := by
  intro fuel
  induction fuel with
  | zero => intro s _ h; omega
  | succ fuel ih =>
      intro s hemp hsup
      rcases hps : parentsSet s with _ | q
      · simp only [climb, hps]
        simp [not_climbReaches_of_none hps]
      · by_cases hq : q ∈ sets
        · simp only [climb, hps, if_pos hq]
          constructor
          · intro _
            exact ⟨0, q, by simpa [parentsIterated] using hps, hq⟩
          · intro _; trivial
        · rcases s.eq_empty_or_nonempty with rfl | hs
          · rw [parentsSet_empty] at hps
            injection hps with hps
            exact absurd (hps ▸ hemp rfl) hq
          · have hqne : q.Nonempty := parentsSet_nonempty hs hps
            have hqsup : q.sup List.length < fuel := by
              have := parentsSet_sup_lt hs hps
              omega
            have hqemp : q = ∅ → (∅ : Finset Path) ∈ sets := by
              intro h; exact absurd h hqne.ne_empty
            simp only [climb, hps, if_neg hq]
            rw [ih q hqemp hqsup]
            exact (climbReaches_of_step hps hq).symm

/-- Sequential model of `ScanState`.  The shared atomics become plain
counters; the cancellation flag, which another thread flips once, is
modelled externally by a schedule `cancelAt : Option Nat` together with
the `time` field: `time` counts the cancellation checks performed so
far, and the flag reads `true` from the `cancelAt`-th check on (`none`
means the flag is never set).  This captures the flag's monotonic
false-to-true behaviour for an arbitrary point of cancellation. -/
structure ScanState where
  time : Nat
  bytes : Nat
  dirs : Nat
  files : Nat
  errorLog : List String
deriving DecidableEq, Repr

/-- The all-zero state a scan starts from (`ScanState::new`). -/
def ScanState.init : ScanState :=
  { time := 0, bytes := 0, dirs := 0, files := 0, errorLog := [] }

/-- `ScanState::canceled` under the external cancellation schedule. -/
def canceled (cancelAt : Option Nat) (s : ScanState) : Bool :=
  match cancelAt with
  | none => false
  | some c => decide (c ≤ s.time)

/-- Advance the check clock by one. -/
def tick (s : ScanState) : ScanState :=
  { s with time := s.time + 1 }

/-- One cancellation check: read the flag, advance the clock. -/
def checkCanceled (cancelAt : Option Nat) (s : ScanState) : Bool × ScanState :=
  (canceled cancelAt s, tick s)

/-- `ScanState::log`. -/
def ScanState.log (s : ScanState) (message : String) : ScanState :=
  { s with errorLog := s.errorLog ++ [message] }

/-- `ScanState::add_bytes`. -/
def ScanState.addBytes (s : ScanState) (n : Nat) : ScanState :=
  { s with bytes := s.bytes + n }

/-- `ScanState::inc_dirs`. -/
def ScanState.incDirs (s : ScanState) : ScanState :=
  { s with dirs := s.dirs + 1 }

/-- `ScanState::inc_files`. -/
def ScanState.incFiles (s : ScanState) : ScanState :=
  { s with files := s.files + 1 }

/-- One `fill_buf` outcome while streaming a file: a chunk of bytes, or
a read error carrying its message.  The end of the chunk list is the
final empty buffer. -/
inductive ChunkRead where
  | chunk (buf : List Nat)
  | readErr (e : String)

mutual

/-- Model of what the filesystem presents at one path: metadata readable
or not, and then a regular file (openable or not, with its stream of
chunk reads), a directory (listable or not, with its sequence of
directory-entry reads), or something else (symlink, device, ...). -/
inductive FSNode where
  | statErr (e : String)
  | other
  | file (openErr : Option String) (chunks : List ChunkRead)
  | dir (listErr : Option String) (entries : FSEntries)

/-- The sequence of `read_dir` items of a directory: each item is a
successfully read child (name and node) or an error reading that one
directory entry. -/
inductive FSEntries where
  | nil
  | entryErr (e : String) (rest : FSEntries)
  | entry (name : String) (node : FSNode) (rest : FSEntries)

end

/-- Insertion into the sorted association list that models
`BTreeMap<CompactString, Entry>`: keeps keys ordered and unique, a later
insertion of an existing key replacing the earlier entry. -/
def btreeInsert (name : String) (e : Entry) : EntryMap → EntryMap
  | .nil => .cons name e .nil
  | .cons n x rest =>
      match compare name n with
      | .lt => .cons name e (.cons n x rest)
      | .eq => .cons name e rest
      | .gt => .cons n x (btreeInsert name e rest)

/-- The chunk loop of `Entry::scan` for a regular file: stream the
chunks, logging and aborting on a read error, stopping at the first
empty buffer, checking cancellation after each nonempty read before
hashing it, and accumulating the content, the byte count, and the shared
bytes counter. -/
def scanChunks (cancelAt : Option Nat) (path : Path) :
    List ChunkRead → ScanState → List Nat → Nat → Option (List Nat × Nat) × ScanState
  | [], s, acc, accBytes => (some (acc, accBytes), s)
  | .readErr e :: _, s, _, _ =>
      (none, s.log ("failed to read " ++ pathDisplay path ++ ": " ++ e))
  | .chunk buf :: rest, s, acc, accBytes =>
      if buf.isEmpty then (some (acc, accBytes), s)
      else
        let (c, s') := checkCanceled cancelAt s
        if c then (none, s')
        else scanChunks cancelAt path rest (s'.addBytes buf.length)
          (acc ++ buf) (accBytes + buf.length)

mutual

/-- The part of `Entry::scan` after its entry cancellation check: read
metadata, then hash a file chunkwise, or recurse over a directory's
children (the parallel fan-out taken in listing order), or log and skip
an unsupported kind.  Returns the optional entry and the final state.
The per-call cancellation check of the source sits in the wrapper `scan`
below and, for the recursive child calls, inline in `scanEntries` — the
same check sequence as in the source, split so that `scan` itself is not
recursive. -/
def scanBody (cancelAt : Option Nat) : FSNode → Path → ScanState → Option Entry × ScanState
  | .statErr e, path, s =>
      (none, s.log ("failed to read metadata of " ++ pathDisplay path ++ ": " ++ e))
  | .file (some e) _, path, s =>
      (none, s.log ("failed to open " ++ pathDisplay path ++ ": " ++ e))
  | .file none chunks, path, s =>
      match scanChunks cancelAt path chunks s [] 0 with
      | (none, s') => (none, s')
      | (some (content, bytes), s') =>
          (some (.File { bytes := bytes, kind := EntryKind.File, hash := hashBytes content }),
            s'.incFiles)
  | .dir (some _) _, _, s => (none, s)
  | .dir none entries, path, s =>
      let (m, s') := scanEntries cancelAt entries path s
      (some (Entry.dir m), s'.incDirs)
  | .other, path, s =>
      (none, s.log ("skipped (neither file/dir): " ++ pathDisplay path))

/-- The child loop of `Entry::scan` for a directory: log and skip
unreadable directory entries, scan each child under its own path
(cancellation checked at the child call's entry, as in the source),
omit children that come back absent, and collect the rest into the
sorted child map. -/
def scanEntries (cancelAt : Option Nat) : FSEntries → Path → ScanState → EntryMap × ScanState
  | .nil, _, s => (.nil, s)
  | .entryErr e rest, path, s =>
      scanEntries cancelAt rest path
        (s.log ("failed to read dir " ++ pathDisplay path ++ ": " ++ e))
  | .entry name node rest, path, s =>
      let (c, s') := checkCanceled cancelAt s
      if c then scanEntries cancelAt rest path s'
      else
        match scanBody cancelAt node (path ++ [name]) s' with
        | (none, s'') => scanEntries cancelAt rest path s''
        | (some ent, s'') =>
            let (m, s''') := scanEntries cancelAt rest path s''
            (btreeInsert name ent m, s''')

end

/-- `Entry::scan`: the entry cancellation check followed by the body. -/
def scan (cancelAt : Option Nat) (node : FSNode) (path : Path) (s : ScanState) :
    Option Entry × ScanState :=
  let (c, s') := checkCanceled cancelAt s
  if c then (none, s') else scanBody cancelAt node path s'

theorem redundantBytes_cast : ∀ m : DupMap,
    (∀ kv ∈ m, kv.1.kind = EntryKind.File → 1 ≤ kv.2.card) →
    (Entry.redundantBytes m : ℤ) =
      ((m.filter fun kv => kv.1.kind == EntryKind.File).map
        fun kv => (kv.1.bytes : ℤ) * ((kv.2.card : ℤ) - 1)).sum
  | [], _ => by simp [Entry.redundantBytes]
  | kv :: rest, h => by
      have ih := redundantBytes_cast rest fun x hx hk =>
        h x (List.mem_cons_of_mem _ hx) hk
      by_cases hk : kv.1.kind = EntryKind.File
      · have hc : 1 ≤ kv.2.card := h kv (List.mem_cons_self _ _) hk
        have hkb : (kv.1.kind == EntryKind.File) = true := by
          simp [hk]
        simp only [Entry.redundantBytes, List.filter_cons, hkb, if_pos,
          List.map_cons, List.sum_cons] at ih ⊢
        push_cast [Nat.cast_sub hc] at ih ⊢
        rw [ih]
      · have hkb : (kv.1.kind == EntryKind.File) = false := by
          simp [hk]
        simp only [Entry.redundantBytes, List.filter_cons, hkb] at ih ⊢
        simp only [Bool.false_eq_true, if_false]
        exact ih

/-! Concrete sample values used by witnesses. -/

/-- A sample one-byte file's `EntryInfo`, content `[1]`. -/
def sampleFileInfo : EntryInfo := ⟨1, EntryKind.File, hashBytes [1]⟩

/-- A sample one-byte file's `EntryInfo` with different content `[2]`. -/
def sampleFileInfo2 : EntryInfo := ⟨1, EntryKind.File, hashBytes [2]⟩

/-- A sample tree built with `Entry.dir`: one file and one empty
subdirectory. -/
def sampleTree : Entry :=
  Entry.dir (.cons "a" (.File sampleFileInfo) (.cons "d" (Entry.dir .nil) .nil))

/-- A sample tree with two identically-filled files `p` and `q`. -/
def sampleDupTree : Entry :=
  Entry.dir (.cons "p" (.File sampleFileInfo) (.cons "q" (.File sampleFileInfo) .nil))

/-- C1.  For every finite collection of child `EntryInfo` values, the
directory-fingerprint constructor `EntryInfo::dir` (reached via
`Entry::dir`) is invariant under permutation of the order in which the
children are supplied: any two enumeration orders of the same multiset
of children yield the same fingerprint (and whole `EntryInfo`, hence the
same byte total) and the same aggregate dir/file counts. -/
theorem claimC1_dir_fingerprint_order_independence
    (c₁ c₂ : List EntryInfo) (l₁ l₂ : List (String × Entry))
    (hc : c₁.Perm c₂) (hl : l₁.Perm l₂) :
    EntryInfo.dir c₁ = EntryInfo.dir c₂ ∧
    (Entry.dir (EntryMap.ofList l₁)).info = (Entry.dir (EntryMap.ofList l₂)).info ∧
    (Entry.dir (EntryMap.ofList l₁)).dirs = (Entry.dir (EntryMap.ofList l₂)).dirs ∧
    (Entry.dir (EntryMap.ofList l₁)).files = (Entry.dir (EntryMap.ofList l₂)).files := by
  have hv : ((EntryMap.ofList l₁).values).Perm ((EntryMap.ofList l₂).values) := by
    rw [EntryMap.values_ofList, EntryMap.values_ofList]
    exact hl.map Prod.snd
  refine ⟨EntryInfo.dir_perm hc, ?_, ?_, ?_⟩
  · show EntryInfo.dir (EntryMap.ofList l₁).infoList
        = EntryInfo.dir (EntryMap.ofList l₂).infoList
    exact EntryInfo.dir_perm ((hv.map Entry.info))
  · show 1 + ((EntryMap.ofList l₁).values.map Entry.dirs).sum
        = 1 + ((EntryMap.ofList l₂).values.map Entry.dirs).sum
    rw [(hv.map Entry.dirs).sum_eq]
  · show ((EntryMap.ofList l₁).values.map Entry.files).sum
        = ((EntryMap.ofList l₂).values.map Entry.files).sum
    rw [(hv.map Entry.files).sum_eq]

/-- Witness for C1 at a concrete two-child swap. -/
theorem claimC1_dir_fingerprint_order_independence_witness :
    EntryInfo.dir [sampleFileInfo, sampleFileInfo2]
      = EntryInfo.dir [sampleFileInfo2, sampleFileInfo] ∧
    (Entry.dir (EntryMap.ofList
        [("a", .File sampleFileInfo), ("b", .File sampleFileInfo2)])).info
      = (Entry.dir (EntryMap.ofList
        [("b", .File sampleFileInfo2), ("a", .File sampleFileInfo)])).info ∧
    (Entry.dir (EntryMap.ofList
        [("a", .File sampleFileInfo), ("b", .File sampleFileInfo2)])).dirs
      = (Entry.dir (EntryMap.ofList
        [("b", .File sampleFileInfo2), ("a", .File sampleFileInfo)])).dirs ∧
    (Entry.dir (EntryMap.ofList
        [("a", .File sampleFileInfo), ("b", .File sampleFileInfo2)])).files
      = (Entry.dir (EntryMap.ofList
        [("b", .File sampleFileInfo2), ("a", .File sampleFileInfo)])).files :=
  claimC1_dir_fingerprint_order_independence _ _ _ _
    (by decide)
    (List.Perm.swap ("b", Entry.File sampleFileInfo2) ("a", Entry.File sampleFileInfo) [])

/-- C5.  On every tree assembled via `Entry::dir` and `File` leaves, the
aggregate invariants hold at every node — `dirs` is one plus the sum of
the children's `dirs`, `files` and `bytes` are the children's sums — and
a single `File` entry has `dirs() = 0` and `files() = 1`. -/
theorem claimC5_aggregate_invariants :
    (∀ i : EntryInfo, (Entry.File i).dirs = 0 ∧ (Entry.File i).files = 1) ∧
    ∀ e : Entry, Built e → e.aggInv = true :=
  ⟨fun _ => ⟨rfl, rfl⟩, fun _ h => h.aggInv_eq_true⟩

/-- Witness for C5 on a concrete two-level tree. -/
theorem claimC5_aggregate_invariants_witness :
    ((Entry.File sampleFileInfo).dirs = 0 ∧ (Entry.File sampleFileInfo).files = 1) ∧
    sampleTree.aggInv = true := by
  refine ⟨claimC5_aggregate_invariants.1 sampleFileInfo,
    claimC5_aggregate_invariants.2 sampleTree ?_⟩
  refine Built.dir _ ?_
  intro e he
  simp only [EntryMap.values, List.mem_cons, List.not_mem_nil, or_false] at he
  rcases he with rfl | rfl
  · exact Built.file _
  · exact Built.dir .nil (by intro e he; simp [EntryMap.values] at he)

/-- C6.  `Entry::unfiltered_duplicates` groups the enumerated
`(EntryInfo, path)` pairs of the tree by `EntryInfo` and returns exactly
the groups whose path set has more than one member; every returned path
set has at least two (distinct) paths, each enumerated for a node whose
`EntryInfo` is the group's key. -/
theorem claimC6_unfiltered_duplicates_groups (e : Entry) :
    (∀ info ps, (info, ps) ∈ e.unfilteredDuplicates ↔
      (ps = pathsOf e.hashes info ∧ 1 < ps.card)) ∧
    (∀ info ps, (info, ps) ∈ e.unfilteredDuplicates →
      1 < ps.card ∧ ∀ p ∈ ps, (info, p) ∈ e.hashes) := by
  constructor
  · intro info ps
    exact mem_unfilteredDuplicates
  · intro info ps h
    obtain ⟨rfl, hc⟩ := mem_unfilteredDuplicates.mp h
    exact ⟨hc, fun p hp => mem_pathsOf.mp hp⟩

/-- Witness for C6 on a tree with one duplicated file. -/
theorem claimC6_unfiltered_duplicates_groups_witness :
    1 < ({["p"], ["q"]} : Finset Path).card ∧
    ∀ p ∈ ({["p"], ["q"]} : Finset Path), (sampleFileInfo, p) ∈ sampleDupTree.hashes :=
  (claimC6_unfiltered_duplicates_groups sampleDupTree).2 sampleFileInfo
    {["p"], ["q"]} (by decide)

/-- C8.  `Entry::redundant_bytes` of a map whose path sets are all
nonempty equals (as an exact integer) the sum over `File`-kind groups of
`bytes * (memberCount - 1)`, and a `Dir`-kind group contributes nothing
to the total. -/
theorem claimC8_redundant_bytes_total (m : DupMap)
    (h : ∀ kv ∈ m, kv.2.Nonempty) :
    ((Entry.redundantBytes m : ℤ) =
      ((m.filter fun kv => kv.1.kind == EntryKind.File).map
        fun kv => (kv.1.bytes : ℤ) * ((kv.2.card : ℤ) - 1)).sum) ∧
    ∀ info ps, info.kind = EntryKind.Dir →
      Entry.redundantBytes ((info, ps) :: m) = Entry.redundantBytes m := by
  constructor
  · exact redundantBytes_cast m fun kv hkv _ => (h kv hkv).card_pos
  · intro info ps hk
    have hkb : (info.kind == EntryKind.File) = false := by simp [hk]
    simp [Entry.redundantBytes, List.filter_cons, hkb]

/-- Witness for C8 on a concrete two-group map. -/
theorem claimC8_redundant_bytes_total_witness :
    ((Entry.redundantBytes
        [(sampleFileInfo, {["p"], ["q"]}), (EntryInfo.dir [sampleFileInfo], {["d"]})] : ℤ) =
      (([(sampleFileInfo, ({["p"], ["q"]} : Finset Path)),
         (EntryInfo.dir [sampleFileInfo], {["d"]})].filter
          fun kv => kv.1.kind == EntryKind.File).map
        fun kv => (kv.1.bytes : ℤ) * ((kv.2.card : ℤ) - 1)).sum) ∧
    ∀ info ps, info.kind = EntryKind.Dir →
      Entry.redundantBytes ((info, ps) ::
          [(sampleFileInfo, {["p"], ["q"]}), (EntryInfo.dir [sampleFileInfo], {["d"]})])
        = Entry.redundantBytes
          [(sampleFileInfo, {["p"], ["q"]}), (EntryInfo.dir [sampleFileInfo], {["d"]})] :=
  claimC8_redundant_bytes_total _ (by decide)

/-- C9.  The fingerprint of a directory with no children never equals
the fingerprint of a zero-byte file: the marker hashed into
`EntryInfo::dir` separates the two computations. -/
theorem claimC9_empty_dir_vs_empty_file :
    (EntryInfo.dir []).hash ≠ hashBytes [] := by decide

/-- C10.  The unguarded `paths.len() - 1` in `Entry::redundant_bytes`
never underflows on maps whose `File`-kind groups are nonempty — the
total then equals the exact integer formula — and every group of
`Entry::unfiltered_duplicates` in fact has at least two paths. -/
theorem claimC10_no_underflow :
    (∀ (e : Entry) (info : EntryInfo) (ps : Finset Path),
      (info, ps) ∈ e.unfilteredDuplicates → 2 ≤ ps.card) ∧
    ∀ m : DupMap, (∀ kv ∈ m, kv.1.kind = EntryKind.File → 1 ≤ kv.2.card) →
      (Entry.redundantBytes m : ℤ) =
        ((m.filter fun kv => kv.1.kind == EntryKind.File).map
          fun kv => (kv.1.bytes : ℤ) * ((kv.2.card : ℤ) - 1)).sum := by
  constructor
  · intro e info ps h
    have := (mem_unfilteredDuplicates.mp h).2
    omega
  · intro m h
    exact redundantBytes_cast m h

/-- Witness for C10: the bound on a concrete duplicate group and the
exact total on a concrete map. -/
theorem claimC10_no_underflow_witness :
    2 ≤ ({["p"], ["q"]} : Finset Path).card ∧
    (Entry.redundantBytes [(sampleFileInfo2, {["u"], ["v"]})] : ℤ) =
      (([(sampleFileInfo2, ({["u"], ["v"]} : Finset Path))].filter
          fun kv => kv.1.kind == EntryKind.File).map
        fun kv => (kv.1.bytes : ℤ) * ((kv.2.card : ℤ) - 1)).sum :=
  ⟨claimC10_no_underflow.1 sampleDupTree sampleFileInfo {["p"], ["q"]} (by decide),
   claimC10_no_underflow.2 _ (by decide)⟩

/-- C3.  `Entry::filter_duplicates_by_prefix` returns a subset of its
input (groups may be dropped, never added or modified), and a group is
dropped exactly when climbing — replacing every path by its parent in
lockstep, round after round — reaches, before any path runs out of
components, a parent-path set that is one of the path sets appearing as
a value of the input map. -/
theorem claimC3_filter_subset_and_climb (m : DupMap) :
    (Entry.filterDuplicatesByPrefix m).Sublist m ∧
    ∀ kv ∈ m, (kv ∈ Entry.filterDuplicatesByPrefix m ↔
      ¬ climbReachesValueSet (valueSets m) kv.2) := by
  constructor
  · exact List.filter_sublist m
  · intro kv hkv
    have hval : kv.2 ∈ valueSets m := by
      simp only [valueSets, List.mem_toFinset, List.mem_map]
      exact ⟨kv, hkv, rfl⟩
    have hiff := climb_eq_false_iff (valueSets m) (climbFuel kv.2) kv.2
      (fun h => h ▸ hval) (by simp [climbFuel])
    constructor
    · intro hmem hreach
      have htrue := (List.mem_filter.mp hmem).2
      rw [hiff.mpr hreach] at htrue
      exact absurd htrue (by simp)
    · intro hnr
      refine List.mem_filter.mpr ⟨hkv, ?_⟩
      cases hcl : climb (valueSets m) (climbFuel kv.2) kv.2 with
      | false => exact absurd (hiff.mp hcl) hnr
      | true => rfl

/-- Witness for C3 on a concrete map where the file-level group climbs
into the directory-level group's path set. -/
theorem claimC3_filter_subset_and_climb_witness :
    ((sampleFileInfo, ({["a", "x"], ["b", "y"]} : Finset Path)) ∈
      ([(EntryInfo.dir [sampleFileInfo], {["a"], ["b"]}),
        (sampleFileInfo, {["a", "x"], ["b", "y"]})] : DupMap)) ∧
    ((sampleFileInfo, ({["a", "x"], ["b", "y"]} : Finset Path)) ∈
        Entry.filterDuplicatesByPrefix
          [(EntryInfo.dir [sampleFileInfo], {["a"], ["b"]}),
           (sampleFileInfo, {["a", "x"], ["b", "y"]})] ↔
      ¬ climbReachesValueSet
        (valueSets [(EntryInfo.dir [sampleFileInfo], {["a"], ["b"]}),
          (sampleFileInfo, {["a", "x"], ["b", "y"]})])
        {["a", "x"], ["b", "y"]}) :=
  ⟨by decide,
   (claimC3_filter_subset_and_climb _).2 _ (by decide)⟩

/-- The `a/x.txt`, `b/y.txt` file info of the C4 scenario (one byte of
content, shared by both). -/
def c4x : EntryInfo := ⟨1, EntryKind.File, hashBytes [1]⟩

/-- The `z.txt`/`w.txt` file info of the C4 scenario (one byte of
unrelated content, shared by both). -/
def c4z : EntryInfo := ⟨1, EntryKind.File, hashBytes [2]⟩

/-- Directory `a` of the C4 scenario, holding `x.txt`. -/
def c4a : Entry := Entry.dir (.cons "x.txt" (.File c4x) .nil)

/-- Directory `b` of the C4 scenario, holding `y.txt` with the same
content as `x.txt`. -/
def c4b : Entry := Entry.dir (.cons "y.txt" (.File c4x) .nil)

/-- The shared `EntryInfo` of directories `a` and `b`. -/
def c4dirInfo : EntryInfo := EntryInfo.dir [c4x]

/-- The root of the C4 scenario: `a`, `b`, and the unrelated duplicate
top-level files `w.txt` and `z.txt`. -/
def c4root : Entry :=
  Entry.dir (.cons "a" c4a (.cons "b" c4b
    (.cons "w.txt" (.File c4z) (.cons "z.txt" (.File c4z) .nil))))

/-- C4.  In the literal scenario — `a/x.txt` and `b/y.txt` identical,
making `a` and `b` identical directories, plus identical top-level
`z.txt` and `w.txt` — the raw duplicate map holds exactly the groups
`{a, b}` (Dir kind), `{a/x.txt, b/y.txt}` (File kind) and
`{z.txt, w.txt}` (File kind), and the prefix filter removes exactly the
`{a/x.txt, b/y.txt}` group. -/
theorem claimC4_concrete_scenario :
    (c4root.unfilteredDuplicates).toFinset =
      {(c4dirInfo, {["a"], ["b"]}),
       (c4x, {["a", "x.txt"], ["b", "y.txt"]}),
       (c4z, {["w.txt"], ["z.txt"]})} ∧
    c4dirInfo.kind = EntryKind.Dir ∧
    c4x.kind = EntryKind.File ∧
    c4z.kind = EntryKind.File ∧
    (Entry.filterDuplicatesByPrefix c4root.unfilteredDuplicates).toFinset =
      {(c4dirInfo, {["a"], ["b"]}),
       (c4z, {["w.txt"], ["z.txt"]})} := by
  decide

/-- The filesystem of the C2 counterexample: a directory with one
one-byte file `a`. -/
def c2fs : FSNode := .dir none (.entry "a" (.file none [.chunk [1]]) .nil)

/-- C2 counterexample.  Scanning `c2fs` under a schedule that sets the
cancellation flag after the root's entry check (so mid-scan: the flag is
already set at the child's own entry check, first conjunct) returns a
`Dir` entry with the canceled child missing — not absent — although the
uncanceled scan of the same tree returns the full tree. -/
theorem claimC2_counterexample :
    canceled (some 1) (tick ScanState.init) = true ∧
    (scan (some 1) c2fs [] ScanState.init).1 = some (Entry.dir EntryMap.nil) ∧
    (scan (some 1) c2fs [] ScanState.init).1 ≠ none ∧
    (scan none c2fs [] ScanState.init).1 =
      some (Entry.dir (.cons "a" (.File ⟨1, EntryKind.File, hashBytes [1]⟩) .nil)) :=
  ⟨rfl, rfl, fun hx => Option.noConfusion hx, rfl⟩

/-- C2 as amended.  A scan call that observes the cancellation flag at
its entry check returns absent immediately — in particular a flag set
before the root call makes the whole scan yield absent, and every
recursive call entered after cancellation yields absent — but a
directory entered before cancellation still assembles a `Dir` entry from
the children that completed, so a mid-scan cancellation can return a
truncated tree instead of absent (second conjunct). -/
theorem claimC2_canceled_scan :
    (∀ (cancelAt : Option Nat) (node : FSNode) (path : Path) (s : ScanState),
      canceled cancelAt s = true → scan cancelAt node path s = (none, tick s)) ∧
    (scan (some 1) c2fs [] ScanState.init).1 = some (Entry.dir EntryMap.nil) := by
  constructor
  · intro cancelAt node path s h
    simp [scan, checkCanceled, h]
  · rfl

/-- Witness for C2: a flag set from the very first check makes the scan
of the counterexample filesystem yield absent. -/
theorem claimC2_canceled_scan_witness :
    canceled (some 0) ScanState.init = true ∧
    scan (some 0) c2fs [] ScanState.init = (none, tick ScanState.init) :=
  ⟨rfl, claimC2_canceled_scan.1 (some 0) c2fs [] ScanState.init rfl⟩

/-- The filesystem of the C7 counterexample: the root directory's
listing (`read_dir`) itself fails. -/
def c7fs : FSNode := .dir (some "boom") .nil

/-- C7 counterexample.  When listing the root directory fails, the scan
yields absent but the error log stays empty — `path.read_dir().ok()?`
drops the error without logging it, against the claim that every
metadata/read error is appended to the error log. -/
theorem claimC7_counterexample :
    (scan none c7fs ["root"] ScanState.init).1 = none ∧
    ((scan none c7fs ["root"] ScanState.init).2).errorLog = [] :=
  ⟨rfl, rfl⟩

/-- C7 as amended.  Failing to stat a path, to open a file, to read a
file chunk, or to read one directory entry, and meeting an unsupported
entry kind, are all non-fatal and per-entry: each appends a message
naming the offending path to the error log and the entry is omitted (a
failing child is skipped by its parent, last conjunct); but a failure to
list a directory yields absent silently, with no log entry. -/
theorem claimC7_per_entry_errors (path : Path) (s : ScanState) (e : String) :
    (scan none (.statErr e) path s =
      (none, (tick s).log ("failed to read metadata of " ++ pathDisplay path ++ ": " ++ e))) ∧
    (∀ chunks, scan none (.file (some e) chunks) path s =
      (none, (tick s).log ("failed to open " ++ pathDisplay path ++ ": " ++ e))) ∧
    (∀ rest, scan none (.file none (.readErr e :: rest)) path s =
      (none, (tick s).log ("failed to read " ++ pathDisplay path ++ ": " ++ e))) ∧
    (scan none .other path s =
      (none, (tick s).log ("skipped (neither file/dir): " ++ pathDisplay path))) ∧
    (∀ entries, scan none (.dir (some e) entries) path s = (none, tick s)) ∧
    (∀ rest, scanEntries none (.entryErr e rest) path s =
      scanEntries none rest path
        (s.log ("failed to read dir " ++ pathDisplay path ++ ": " ++ e))) ∧
    (∀ name rest, scanEntries none (.entry name (.statErr e) rest) path s =
      scanEntries none rest path
        ((tick s).log ("failed to read metadata of " ++
          pathDisplay (path ++ [name]) ++ ": " ++ e))) :=
  ⟨rfl, fun _ => rfl, fun _ => rfl, rfl, fun _ => rfl, fun _ => rfl, fun _ _ => rfl⟩

end SSDedupe
